import Mathlib

/-
Verification of the abbreviation extension (`markdown/extensions/abbr.py`).

The development is a shallow embedding of the Python source:
strings are modelled as `List Char` (so index arithmetic matches
Python's character offsets), Python `dict`s as insertion-ordered
association lists with unique keys, and the `xml.etree` element tree
as a mutual inductive of elements and child lists.  Each definition
carries the name of the Python function or method it translates.
-/

set_option autoImplicit false

namespace Abbr

/-- A Python `str`, modelled as its list of characters. -/
abbrev Str := List Char

/-- A Python `dict[str, str]`, modelled as an insertion-ordered
association list.  Real dicts never contain a duplicate key; theorems
that depend on this carry a `Nodup` hypothesis on the key list. -/
abbrev Table := List (Str × Str)

/-- The apostrophe character, written by code point to keep the
source free of quote-escape noise. -/
def squote : Char := Char.ofNat 39

/-- The double-quote character, by code point. -/
def dquote : Char := Char.ofNat 34

/-- The backslash character, by code point. -/
def bslash : Char := Char.ofNat 92

/-- Keys of a table, in insertion order (Python `dict.keys()`). -/
def keys (d : Table) : List Str := d.map Prod.fst

/-- Python `d[k]` as a total lookup: `some` of the stored value, or
`none` when the key is absent (where Python would raise `KeyError`). -/
def dictGet : Table → Str → Option Str
  | [], _ => none
  | (k', v) :: d, k => if k' = k then some v else dictGet d k

/-- Python `d[k] = v`: update in place when the key exists (keeping
its position), otherwise append a new entry. -/
def dictSet : Table → Str → Str → Table
  | [], k, v => [(k, v)]
  | (k', v') :: d, k, v => if k' = k then (k, v) :: d else (k', v') :: dictSet d k v

/-- Python `d.pop(k)` with no default: `some` of the table without the
key, or `none` when the key is absent (Python raises `KeyError`). -/
def dictPop : Table → Str → Option Table
  | [], _ => none
  | (k', v) :: d, k => if k' = k then some d else (dictPop d k).map (fun r => (k', v) :: r)

/-- Python `d.update(es)`: assign each entry of `es` in order. -/
def dictUpdate (d : Table) (es : Table) : Table :=
  es.foldl (fun a kv => dictSet a kv.1 kv.2) d

/-- Characters stripped by Python `str.strip()` (ASCII whitespace). -/
def isPySpace (c : Char) : Bool :=
  c == ' ' || c == '\t' || c == '\n' || c == '\r' || c == Char.ofNat 11 || c == Char.ofNat 12

/-- Python `s.strip()`. -/
def pyStrip (s : Str) : Str :=
  ((s.dropWhile isPySpace).reverse.dropWhile isPySpace).reverse

/-- Python `s.lstrip("\n")`. -/
def lstripNl (s : Str) : Str := s.dropWhile (fun c => c == '\n')

/-- Python `s.rstrip("\n")`. -/
def rstripNl (s : Str) : Str := (s.reverse.dropWhile (fun c => c == '\n')).reverse

/-- The mutable state of `AbbrExtension`: the current table
(`self.abbrs`) and the persistent glossary (`self.glossary`). -/
structure AbbrExtension where
  abbrs : Table
  glossary : Table
  deriving DecidableEq

/-- `AbbrExtension.reset`: `self.abbrs.clear()`, then
`if self.glossary: self.abbrs.update(self.glossary)`. -/
def reset (e : AbbrExtension) : AbbrExtension :=
  { e with abbrs := if e.glossary ≠ [] then dictUpdate [] e.glossary else [] }

/-- `AbbrExtension.load_glossary`: `if dictionary:
self.glossary = {**dictionary, **self.glossary}` — a fresh dict whose
entries come from `dictionary` first and then the existing glossary,
so an existing glossary entry overwrites a newly supplied one. -/
def load_glossary (e : AbbrExtension) (dictionary : Table) : AbbrExtension :=
  if dictionary ≠ [] then
    { e with glossary := dictUpdate (dictUpdate [] dictionary) e.glossary }
  else e

/-- Python `sorted(self.abbrs.keys(), key=len, reverse=True)`:
a stable sort of the keys by length, longest first. -/
def insertByLenDesc (x : Str) : List Str → List Str
  | [] => [x]
  | y :: ys => if y.length ≤ x.length then x :: y :: ys else y :: insertByLenDesc x ys

/-- The sorted key list used to build the alternation pattern of
`AbbrTreeprocessor.pattern` (stable, length-descending). -/
def sortKeysDesc (d : Table) : List Str :=
  (keys d).foldr insertByLenDesc []

/-- The caching state of `AbbrTreeprocessor`: the shared table
(`self.abbrs`) and the cached pattern (`self._pattern`).  The pattern
string `\b(?:k1|k2|...)\b` is represented by its alternation list of
escaped literal keys; `none` means the cache is unbuilt.  The
non-matching fallback pattern `(?!)` is represented by the empty
alternation list, which matches nothing. -/
structure AbbrTreeprocessorState where
  abbrs : Table
  patternCache : Option (List Str)
  deriving DecidableEq

/-- The `AbbrTreeprocessor.pattern` property: build and cache the
pattern when the cache is unbuilt and the table non-empty, otherwise
return the cached pattern (or the non-matching fallback). -/
def patternGet (tp : AbbrTreeprocessorState) : List Str × AbbrTreeprocessorState :=
  if tp.patternCache = none ∧ tp.abbrs ≠ [] then
    let p := sortKeysDesc tp.abbrs
    (p, { tp with patternCache := some p })
  else
    (tp.patternCache.getD [], tp)

/-! ## The matching engine of `AbbrTreeprocessor`

The compiled regex `\b(?:k1|k2|...)\b` (keys escaped for literal
matching, so each alternative matches exactly its key) is modelled
directly: `tryMatch` is one attempt of the pattern at a position
(alternatives in pattern order, word boundaries on both sides), and
`scanMatches` is `re.finditer`'s left-to-right, non-overlapping scan.
Word characters follow the ASCII reading of `\w`. -/

/-- ASCII `\w`: letters, digits, and underscore. -/
def isWordChar (c : Char) : Bool := c.isAlphanum || c == '_'

/-- Whether position `i` of `t` holds a word character (out of range
counts as non-word). -/
def wordAt (t : Str) (i : Nat) : Bool :=
  match t[i]? with
  | some c => isWordChar c
  | none => false

/-- The `\b` assertion at position `i` of `t`. -/
def wordB (t : Str) (i : Nat) : Bool :=
  (if i == 0 then false else wordAt t (i - 1)) != wordAt t i

/-- One attempt of the alternation pattern at position `i`:
alternatives are tried in order; an alternative `a` succeeds when both
word boundaries hold and `a` occurs literally at `i`. -/
def tryMatch (t : Str) (i : Nat) : List Str → Option Str
  | [] => none
  | a :: as =>
      if wordB t i ∧ (t.drop i).take a.length = a ∧ wordB t (i + a.length) then some a
      else tryMatch t i as

/-- `re.finditer`: scan positions left to right, emit each match as
`(start, end, group)` and continue after it (one past it when the
match is empty).  The fuel argument only bounds the recursion; the
scan stops at `t.length` on its own. -/
def scanMatches (alts : List Str) (t : Str) : Nat → Nat → List (Nat × Nat × Str)
  | 0, _ => []
  | fuel + 1, i =>
      if i ≤ t.length then
        match tryMatch t i alts with
        | some w => (i, i + w.length, w) :: scanMatches alts t fuel (max (i + w.length) (i + 1))
        | none => scanMatches alts t fuel (i + 1)
      else []

/-- All matches of the pattern over `t`. -/
def finditer (alts : List Str) (t : Str) : List (Nat × Nat × Str) :=
  scanMatches alts t (t.length + 1) 0

/-- A match tuple `(m.start(), m.end(), m.group(0), self.abbrs[m.group(0)])`
as appended by `process_text`. -/
abbrev AMatch := Nat × Nat × Str × Str

/-- The body of `process_text`'s loop as it behaves inside the tree
walk, where every alternative of the pattern is a key of the table
(the pattern is built from the table's own keys), so the
`self.abbrs[m.group(0)]` lookup cannot raise: keep a finditer match
when its definition in the table is truthy, pairing it with that
definition.  The faithful model of the loop body including the
`KeyError` of a missing key is `loopStep` below; the two agree
whenever all alternatives are keys of the table. -/
def keepTruthy (abbrs : Table) (m : Nat × Nat × Str) : Option AMatch :=
  match dictGet abbrs m.2.2 with
  | some d => if d ≠ [] then some (m.1, m.2.1, m.2.2, d) else none
  | none => none

/-- `AbbrTreeprocessor.process_text` as invoked by the tree walk
(every alternative of `alts` a key of `abbrs`): return the text
unchanged and append to the accumulator `ms` (the Python `matches`
argument) every finditer match whose definition is truthy.  `alts` is
the alternation list of `self.pattern`.  The exception-faithful model
of this method is `process_textE` below. -/
def process_text (abbrs : Table) (alts : List Str) (text : Str) (ms : List AMatch) :
    Str × List AMatch :=
  if text = [] then (text, ms)
  else (text, ms ++ (finditer alts text).filterMap (keepTruthy abbrs))

/-- One iteration of `process_text`'s loop, exception-faithful:
`if self.abbrs[m.group(0)]: matches.append((m.start(), m.end(),
m.group(0), self.abbrs[m.group(0)]))`.  The subscript lookup has no
default, so a matched term absent from the table raises `KeyError`,
modelled as `none`. -/
def loopStep (abbrs : Table) (acc : List AMatch) (m : Nat × Nat × Str) : Option (List AMatch) :=
  match dictGet abbrs m.2.2 with
  | some d => some (if d ≠ [] then acc ++ [(m.1, m.2.1, m.2.2, d)] else acc)
  | none => none

/-- `AbbrTreeprocessor.process_text`, exception-faithful: iterate the
finditer matches in order, appending the truthy ones, and propagate
the `KeyError` (as `none`) raised when a matched term — possible only
when the scanned pattern is stale with respect to the table — is not a
key. -/
def process_textE (abbrs : Table) (alts : List Str) (text : Str) (ms : List AMatch) :
    Option (Str × List AMatch) :=
  if text = [] then some (text, ms)
  else ((finditer alts text).foldlM (loopStep abbrs) ms).map (fun acc => (text, acc))

/-! ## The element tree -/

mutual
/-- An `xml.etree` element: tag, attributes, optional text, children,
optional tail.  (`AtomicString` marking is irrelevant to this pass and
not modelled.) -/
inductive Elem where
  | mk (tag : Str) (attrs : List (Str × Str)) (text : Option Str)
       (children : ElemList) (tail : Option Str)
  deriving DecidableEq

/-- The ordered child list of an element. -/
inductive ElemList where
  | nil
  | cons (e : Elem) (es : ElemList)
  deriving DecidableEq
end

/-- The `tail` field of an element. -/
def Elem.tail : Elem → Option Str
  | .mk _ _ _ _ tl => tl

/-- The `text` field of an element. -/
def Elem.text : Elem → Option Str
  | .mk _ _ tx _ _ => tx

/-- The child list of an element. -/
def Elem.children : Elem → ElemList
  | .mk _ _ _ cs _ => cs

/-- Append of child lists. -/
def elAppend : ElemList → ElemList → ElemList
  | .nil, b => b
  | .cons e es, b => .cons e (elAppend es b)

/-- A plain list of elements as a child list. -/
def listToEL : List Elem → ElemList
  | [] => .nil
  | e :: es => .cons e (listToEL es)

/-- `AbbrTreeprocessor.create_element`: an `abbr` element with a
`title` attribute, the matched text as content, and the given tail. -/
def create_element (title text tl : Str) : Elem :=
  .mk "abbr".data [("title".data, title)] (some text) .nil (some tl)

/-- The reversed-match loop shared by the text and tail branches of
`process_element_text`: for each match (latest first) build an `abbr`
element whose tail is everything after the match, prepend it to the
accumulated insertions, and truncate the string to before the match. -/
def applyLoop : Str → List AMatch → List Elem → Str × List Elem
  | t, [], acc => (t, acc)
  | t, (s, e, w, title) :: rest, acc =>
      applyLoop (t.take s) rest (create_element title w (t.drop e) :: acc)

/-- Processing of one optional text/tail string: when truthy, collect
matches with `process_text` and apply them in reverse order, yielding
the truncated string and the `abbr` elements to insert (in document
order). -/
def processTextPart (abbrs : Table) (alts : List Str) (txt : Option Str) :
    Option Str × List Elem :=
  match txt with
  | some t =>
      if t ≠ [] then
        let pr := process_text abbrs alts t []
        let ap := applyLoop pr.1 pr.2.reverse []
        (some ap.1, ap.2)
      else (some t, [])
  | none => (none, [])

mutual
/-- `AbbrTreeprocessor.process_element_text`: process the children
(each child's insertions land right after it), then the element's own
text (its `abbr` elements become the first children), then — when the
element has a parent — its tail (those `abbr` elements are returned to
be inserted after the element in its parent). -/
def process_element_text (abbrs : Table) (alts : List Str) : Elem → Bool → Elem × List Elem
  | .mk tag attrs text children tl, hasParent =>
      let kids := processChildren abbrs alts children
      let tpair := processTextPart abbrs alts text
      let lpair := if hasParent then processTextPart abbrs alts tl else (tl, [])
      (.mk tag attrs tpair.1 (elAppend (listToEL tpair.2) kids) lpair.1, lpair.2)

/-- The child loop of `process_element_text`: each child is processed
with the current element as parent and its tail insertions are spliced
in immediately after it. -/
def processChildren (abbrs : Table) (alts : List Str) : ElemList → ElemList
  | .nil => .nil
  | .cons e es =>
      let r := process_element_text abbrs alts e true
      .cons r.1 (elAppend (listToEL r.2) (processChildren abbrs alts es))
end

/-- `AbbrTreeprocessor.run` on a freshly constructed processor: no-op
on an empty table, otherwise walk the tree with the pattern built from
the table's keys (the root has no parent, so its tail is untouched). -/
def abbrTree_run (abbrs : Table) (root : Elem) : Elem :=
  if abbrs = [] then root
  else (process_element_text abbrs (sortKeysDesc abbrs) root false).1

/-- Content of an optional string. -/
def optChars (o : Option Str) : Str := o.getD []

mutual
/-- Concatenation of all text and tail content of an element's
subtree, in document order (the element's own tail excluded). -/
def elemChars : Elem → Str
  | .mk _ _ text children _ => optChars text ++ childrenChars children

/-- Document-order content of a child list: each child's subtree
followed by its tail. -/
def childrenChars : ElemList → Str
  | .nil => []
  | .cons e es => elemChars e ++ (optChars e.tail ++ childrenChars es)
end

/-- Document-order content of a plain list of siblings. -/
def elemsChars : List Elem → Str
  | [] => []
  | e :: es => elemChars e ++ (optChars e.tail ++ elemsChars es)

/-! ## The declaration regex of `AbbrBlockprocessor`

`RE = ^[*]\[(?P<abbr>[^\\]*?)\][ ]?:[ ]*\n?[ ]*(?P<title>.*)$` in
MULTILINE mode.  `search` returns the leftmost match; since the
pattern is anchored at `^`, only line starts can match.  The lazy term
group backtracks: the match uses the first closing `]` from which the
rest of the pattern succeeds, and the term may contain anything except
a backslash (including `]` and newlines).  Everything after the colon
is greedy and never needs backtracking because `(.*)$` succeeds at any
position.  These functions are only evaluated on concrete input, so
they use simple fuel recursion. -/

/-- Greedy `[ ]*`: first position at or after `i` that is not a space. -/
def skipSpaces (b : Str) : Nat → Nat → Nat
  | 0, i => i
  | fuel + 1, i => if b[i]? = some ' ' then skipSpaces b fuel (i + 1) else i

/-- End of the current line: the position of the next newline at or
after `i`, or the end of the string.  This is where `(.*)$` ends. -/
def lineEnd (b : Str) : Nat → Nat → Nat
  | 0, i => i
  | fuel + 1, i =>
      match b[i]? with
      | some c => if c = '\n' then i else lineEnd b fuel (i + 1)
      | none => i

/-- `[ ]?:` with the greedy optional space: consume `" :"` when
possible, else `":"`, else fail. -/
def matchColon (b : Str) (j : Nat) : Option Nat :=
  if b[j]? = some ' ' ∧ b[j + 1]? = some ':' then some (j + 2)
  else if b[j]? = some ':' then some (j + 1) else none

/-- The pattern tail `[ ]?:[ ]*\n?[ ]*(.*)$` starting at `j` (just
after the `]`): returns the raw title group and the match end. -/
def declTail (b : Str) (j : Nat) : Option (Str × Nat) :=
  match matchColon b j with
  | some k =>
      let k1 := skipSpaces b (b.length + 1) k
      let k2 := if b[k1]? = some '\n' then k1 + 1 else k1
      let k3 := skipSpaces b (b.length + 1) k2
      let e := lineEnd b (b.length + 1) k3
      some ((b.drop k3).take (e - k3), e)
  | none => none

/-- The lazy term group `[^\\]*?\]` with backtracking: scan `q`
rightward from the group start `p`; at each `]` try the pattern tail,
and stop for good at a backslash. -/
def findTerm (b : Str) (p : Nat) : Nat → Nat → Option (Str × Str × Nat)
  | 0, _ => none
  | fuel + 1, q =>
      match b[q]? with
      | none => none
      | some c =>
          if c = bslash then none
          else if c = ']' then
            match declTail b (q + 1) with
            | some (ti, e) => some ((b.drop p).take (q - p), ti, e)
            | none => findTerm b p fuel (q + 1)
          else findTerm b p fuel (q + 1)

/-- A match of `RE`: `(m.start(), m.end(), raw abbr group, raw title group)`. -/
abbrev BMatch := Nat × Nat × Str × Str

/-- One attempt of `RE` at line start `i`. -/
def tryDecl (b : Str) (i : Nat) : Option BMatch :=
  if b[i]? = some '*' ∧ b[i + 1]? = some '[' then
    match findTerm b (i + 2) (b.length + 1) (i + 2) with
    | some (term, ti, e) => some (i, e, term, ti)
    | none => none
  else none

/-- Leftmost-match search: try each position in order, attempting the
pattern only at line starts (position 0 or just after a newline). -/
def reSearchAux (b : Str) : Nat → Nat → Option BMatch
  | 0, _ => none
  | fuel + 1, i =>
      if i > b.length then none
      else if i = 0 ∨ b[i - 1]? = some '\n' then
        match tryDecl b i with
        | some m => some m
        | none => reSearchAux b fuel (i + 1)
      else reSearchAux b fuel (i + 1)

/-- `AbbrBlockprocessor.RE.search(block)`. -/
def reSearch (b : Str) : Option BMatch := reSearchAux b (b.length + 1) 0

/-- `AbbrBlockprocessor.run`: pop the first block; on a declaration
match with non-empty stripped term and title, update the table
(`self.abbrs.pop(abbr)` for the `''`/`""` deletion sentinel — which
raises `KeyError`, modelled as `none`, when the term is absent —
otherwise `self.abbrs[abbr] = title`), re-queue the non-whitespace
content after and before the match, and signal handled; otherwise
restore the block and signal not handled.  The result is
`some (table, blocks, handled)`, or `none` when an exception
propagates. -/
def abbrBlock_run (abbrs : Table) (blocks : List Str) : Option (Table × List Str × Bool) :=
  match blocks with
  | [] => none
  | block :: rest =>
      match reSearch block with
      | some (s, e, rawAbbr, rawTitle) =>
          let abbr := pyStrip rawAbbr
          let title := pyStrip rawTitle
          if title ≠ [] ∧ abbr ≠ [] then
            let tbl? : Option Table :=
              if title = [squote, squote] ∨ title = [dquote, dquote] then
                dictPop abbrs abbr
              else some (dictSet abbrs abbr title)
            match tbl? with
            | none => none
            | some tbl =>
                let rest1 := if pyStrip (block.drop e) ≠ [] then lstripNl (block.drop e) :: rest else rest
                let rest2 := if pyStrip (block.take s) ≠ [] then rstripNl (block.take s) :: rest1 else rest1
                some (tbl, rest2, true)
          else some (abbrs, block :: rest, false)
      | none => some (abbrs, block :: rest, false)

/-! ## Invariants of match lists

A finditer result is an ascending chain of spans of the scanned
string; applying it in reverse order consumes a descending chain.
These predicates record exactly what the reconstruction proof needs:
each match's text is the corresponding slice of the string, and
successive matches do not overlap. -/

/-- Ascending chain for raw finditer matches: starting at or after
`p`, each span lies inside `t`, carries the slice it covers, and the
next match starts at or after its end. -/
def ChainedR (t : Str) : Nat → List (Nat × Nat × Str) → Prop
  | _, [] => True
  | p, (s, e, w) :: rest =>
      p ≤ s ∧ s ≤ e ∧ e ≤ t.length ∧ w = (t.drop s).take (e - s) ∧ ChainedR t e rest

/-- The same chain shape for the tuples accumulated by `process_text`. -/
def ChainedT (t : Str) : Nat → List AMatch → Prop
  | _, [] => True
  | p, (s, e, w, _) :: rest =>
      p ≤ s ∧ s ≤ e ∧ e ≤ t.length ∧ w = (t.drop s).take (e - s) ∧ ChainedT t e rest

/-- Descending chain, the shape consumed by `applyLoop`: the head is
the latest match, and the earlier matches form a chain of the prefix
of `t` before it. -/
def DescOk (t : Str) : List AMatch → Prop
  | [] => True
  | (s, e, w, _) :: rest =>
      s ≤ e ∧ e ≤ t.length ∧ w = (t.drop s).take (e - s) ∧ DescOk (t.take s) rest

/-! ## Theorems -/

theorem wordB_le {t : Str} {i : Nat} (h : wordB t i = true) : i ≤ t.length := by
  by_contra hlt
  push_neg at hlt
  have h1 : wordAt t i = false := by
    unfold wordAt
    rw [List.getElem?_eq_none (by omega)]
  have h2 : wordAt t (i - 1) = false := by
    unfold wordAt
    rw [List.getElem?_eq_none (by omega)]
  unfold wordB at h
  rw [h1, h2] at h
  simp at h

theorem tryMatch_spec {t : Str} {i : Nat} {w : Str} :
    ∀ {alts : List Str}, tryMatch t i alts = some w →
      (t.drop i).take w.length = w ∧ i + w.length ≤ t.length := by
  intro alts
  induction alts with
  | nil => intro h; simp [tryMatch] at h
  | cons a as ih =>
    intro h
    rw [tryMatch] at h
    split at h
    · rename_i hc
      obtain ⟨hb, hpre, _⟩ := hc
      have hw : a = w := by injection h
      subst hw
      refine ⟨hpre, ?_⟩
      have hlen : ((t.drop i).take a.length).length = a.length := by rw [hpre]
      rw [List.length_take, List.length_drop] at hlen
      have hi : i ≤ t.length := wordB_le hb
      omega
    · exact ih h

theorem chainedR_mono {t : Str} {p q : Nat} {ms : List (Nat × Nat × Str)}
    (hpq : p ≤ q) (h : ChainedR t q ms) : ChainedR t p ms := by
  cases ms with
  | nil => trivial
  | cons m rest =>
    obtain ⟨s, e, w⟩ := m
    simp only [ChainedR] at h ⊢
    obtain ⟨h1, h2⟩ := h
    exact ⟨by omega, h2⟩

theorem chainedT_mono {t : Str} {p q : Nat} {ms : List AMatch}
    (hpq : p ≤ q) (h : ChainedT t q ms) : ChainedT t p ms := by
  cases ms with
  | nil => trivial
  | cons m rest =>
    obtain ⟨s, e, w, d⟩ := m
    simp only [ChainedT] at h ⊢
    obtain ⟨h1, h2⟩ := h
    exact ⟨by omega, h2⟩

theorem scanMatches_chained (alts : List Str) (t : Str) :
    ∀ (fuel i : Nat), ChainedR t i (scanMatches alts t fuel i) := by
  intro fuel
  induction fuel with
  | zero => intro i; simp [scanMatches, ChainedR]
  | succ f ih =>
    intro i
    rw [scanMatches]
    split
    · cases htm : tryMatch t i alts with
      | none => simpa [htm] using chainedR_mono (Nat.le_succ i) (ih (i + 1))
      | some w =>
        have hspec := tryMatch_spec htm
        simp only [htm, ChainedR]
        refine ⟨Nat.le_refl i, by omega, by omega, ?_, ?_⟩
        · rw [Nat.add_sub_cancel_left]
          exact hspec.1.symm
        · exact chainedR_mono (Nat.le_max_left _ _) (ih _)
    · simp [ChainedR]

theorem filterMap_chained {abbrs : Table} {t : Str} :
    ∀ {ms : List (Nat × Nat × Str)} {p : Nat}, ChainedR t p ms →
      ChainedT t p (ms.filterMap (keepTruthy abbrs)) := by
  intro ms
  induction ms with
  | nil => intro p _; simp [ChainedT]
  | cons m rest ih =>
    intro p h
    obtain ⟨s, e, w⟩ := m
    simp only [ChainedR] at h
    obtain ⟨h1, h2, h3, h4, h5⟩ := h
    rw [List.filterMap_cons]
    cases hk : keepTruthy abbrs (s, e, w) with
    | none => exact chainedT_mono (by omega) (ih h5)
    | some x =>
      rw [keepTruthy] at hk
      cases hg : dictGet abbrs w with
      | none => simp only [hg] at hk; cases hk
      | some d =>
        simp only [hg] at hk
        by_cases hd : d ≠ []
        · rw [if_pos hd] at hk
          cases hk
          show ChainedT t p ((s, e, w, d) :: List.filterMap (keepTruthy abbrs) rest)
          simp only [ChainedT]
          exact ⟨h1, h2, h3, h4, ih h5⟩
        · rw [if_neg hd] at hk
          cases hk

theorem process_text_fst (abbrs : Table) (alts : List Str) (t : Str) (ms : List AMatch) :
    (process_text abbrs alts t ms).1 = t := by
  rw [process_text]
  split <;> rfl

theorem process_text_chained (abbrs : Table) (alts : List Str) (t : Str) :
    ChainedT t 0 (process_text abbrs alts t []).2 := by
  rw [process_text]
  split
  · simp [ChainedT]
  · simpa using filterMap_chained (scanMatches_chained alts t (t.length + 1) 0)

theorem descOk_take_mono {t : Str} {rev : List AMatch} {p q : Nat} (hpq : p ≤ q)
    (h : DescOk (t.take p) rev) : DescOk (t.take q) rev := by
  cases rev with
  | nil => trivial
  | cons m rest =>
    obtain ⟨s, e, w, d⟩ := m
    simp only [DescOk] at h ⊢
    obtain ⟨h1, h2, h3, h4⟩ := h
    rw [List.length_take] at h2
    have hsp : s ≤ p := by omega
    refine ⟨h1, ?_, ?_, ?_⟩
    · rw [List.length_take]; omega
    · rw [List.drop_take, List.take_take, Nat.min_eq_left (by omega)] at h3
      rw [List.drop_take, List.take_take, Nat.min_eq_left (by omega)]
      exact h3
    · rw [List.take_take, Nat.min_eq_left hsp] at h4
      rw [List.take_take, Nat.min_eq_left (by omega)]
      exact h4

theorem descOk_of_take {t : Str} {rev : List AMatch} {p : Nat}
    (h : DescOk (t.take p) rev) : DescOk t rev := by
  have h2 := descOk_take_mono (Nat.le_max_left p t.length) h
  rwa [List.take_of_length_le (Nat.le_max_right p t.length)] at h2

theorem chainedT_rev : ∀ (ms rev : List AMatch) (t : Str) (p : Nat),
    ChainedT t p ms → DescOk (t.take p) rev → DescOk t (ms.reverse ++ rev) := by
  intro ms
  induction ms with
  | nil => intro rev t p _ hrev; simpa using descOk_of_take hrev
  | cons m rest ih =>
    intro rev t p hch hrev
    obtain ⟨s, e, w, d⟩ := m
    simp only [ChainedT] at hch
    obtain ⟨h1, h2, h3, h4, h5⟩ := hch
    rw [List.reverse_cons, List.append_assoc, List.singleton_append]
    refine ih ((s, e, w, d) :: rev) t e h5 ?_
    simp only [DescOk]
    refine ⟨h2, ?_, ?_, ?_⟩
    · rw [List.length_take]; omega
    · rw [List.drop_take, List.take_take, Nat.min_self]
      exact h4
    · rw [List.take_take, Nat.min_eq_left h2]
      exact descOk_take_mono h1 hrev

theorem take_slice_drop {t : Str} {s e : Nat} (h : s ≤ e) :
    t.take s ++ ((t.drop s).take (e - s) ++ t.drop e) = t := by
  have h1 : t.drop e = (t.drop s).drop (e - s) := by
    rw [List.drop_drop]
    congr 1
    omega
  rw [h1, List.take_append_drop, List.take_append_drop]

theorem applyLoop_chars : ∀ (rev : List AMatch) (t : Str) (acc : List Elem), DescOk t rev →
    (applyLoop t rev acc).1 ++ elemsChars (applyLoop t rev acc).2 = t ++ elemsChars acc := by
  intro rev
  induction rev with
  | nil => intro t acc _; rfl
  | cons m rest ih =>
    intro t acc h
    obtain ⟨s, e, w, d⟩ := m
    simp only [DescOk] at h
    obtain ⟨h1, h2, h3, h4⟩ := h
    rw [applyLoop, ih _ _ h4]
    simp only [elemsChars, create_element, elemChars, childrenChars, Elem.tail, optChars,
      Option.getD, List.append_nil]
    rw [h3]
    calc t.take s ++ ((t.drop s).take (e - s) ++ (t.drop e ++ elemsChars acc))
        = (t.take s ++ ((t.drop s).take (e - s) ++ t.drop e)) ++ elemsChars acc := by
          simp [List.append_assoc]
      _ = t ++ elemsChars acc := by rw [take_slice_drop h1]

theorem childrenChars_elAppend (a b : ElemList) :
    childrenChars (elAppend a b) = childrenChars a ++ childrenChars b := by
  cases a with
  | nil => simp [elAppend, childrenChars]
  | cons e es =>
    rw [elAppend]
    simp only [childrenChars]
    rw [childrenChars_elAppend es b]
    simp [List.append_assoc]

theorem childrenChars_listToEL (l : List Elem) : childrenChars (listToEL l) = elemsChars l := by
  induction l with
  | nil => rfl
  | cons e es ih => simp [listToEL, childrenChars, elemsChars, ih]

theorem processTextPart_chars (abbrs : Table) (alts : List Str) (txt : Option Str) :
    optChars (processTextPart abbrs alts txt).1 ++ elemsChars (processTextPart abbrs alts txt).2 =
      optChars txt := by
  cases txt with
  | none => rfl
  | some t =>
    rw [processTextPart]
    split
    · have hch := process_text_chained abbrs alts t
      have hdesc : DescOk t (process_text abbrs alts t []).2.reverse := by
        simpa using chainedT_rev (process_text abbrs alts t []).2 [] t 0 hch trivial
      simp only [optChars, Option.getD, process_text_fst]
      simpa [elemsChars] using applyLoop_chars (process_text abbrs alts t []).2.reverse t [] hdesc
    · simp [optChars, elemsChars]

mutual
theorem processChildren_chars (abbrs : Table) (alts : List Str) (els : ElemList) :
    childrenChars (processChildren abbrs alts els) = childrenChars els := by
  cases els with
  | nil => rfl
  | cons e es =>
    rw [processChildren]
    have h1 := process_element_text_chars abbrs alts e true
    have h2 := processChildren_chars abbrs alts es
    simp only [childrenChars, childrenChars_elAppend, childrenChars_listToEL]
    rw [h1.1, h2]
    congr 1
    rw [← List.append_assoc, h1.2]

theorem process_element_text_chars (abbrs : Table) (alts : List Str) (el : Elem) (hp : Bool) :
    elemChars (process_element_text abbrs alts el hp).1 = elemChars el ∧
    optChars (Elem.tail (process_element_text abbrs alts el hp).1) ++
        elemsChars (process_element_text abbrs alts el hp).2 =
      optChars (Elem.tail el) := by
  cases el with
  | mk tag attrs text children tl =>
    have hk := processChildren_chars abbrs alts children
    rw [process_element_text]
    constructor
    · simp only [elemChars, childrenChars_elAppend, childrenChars_listToEL]
      rw [hk, ← List.append_assoc, processTextPart_chars]
    · cases hp with
      | true =>
        simp only [Elem.tail]
        exact processTextPart_chars abbrs alts tl
      | false => simp [Elem.tail, elemsChars]
end

/-- Claim C1: for every document tree and every abbreviation table,
`AbbrTreeprocessor.run` preserves the concatenation of all text and
tail content of the tree in document order: matched substrings are
only moved into newly inserted `abbr` nodes at the same position, so
no characters are added, removed, or reordered. -/
theorem C1_run_preserves_document_order_chars (abbrs : Table) (root : Elem) :
    elemChars (abbrTree_run abbrs root) = elemChars root := by
  rw [abbrTree_run]
  split
  · rfl
  · exact (process_element_text_chars abbrs (sortKeysDesc abbrs) root false).1

theorem dictSet_append_of_not_mem {d : Table} {k v : Str} (h : k ∉ keys d) :
    dictSet d k v = d ++ [(k, v)] := by
  induction d with
  | nil => rfl
  | cons kv d ih =>
    obtain ⟨k', v'⟩ := kv
    simp only [keys, List.map_cons, List.mem_cons] at h
    push_neg at h
    rw [dictSet, if_neg (fun hk => h.1 hk.symm), ih (by simpa [keys] using h.2)]
    rfl

theorem dictUpdate_append_disjoint : ∀ {es d : Table},
    (∀ x ∈ keys es, x ∉ keys d) → (keys es).Nodup → dictUpdate d es = d ++ es := by
  intro es
  induction es with
  | nil => intro d _ _; simp [dictUpdate]
  | cons kv es ih =>
    intro d hdisj hnd
    obtain ⟨k, v⟩ := kv
    have hstep : dictUpdate d ((k, v) :: es) = dictUpdate (dictSet d k v) es := rfl
    simp only [keys, List.map_cons, List.nodup_cons] at hnd
    have hk_not_d : k ∉ keys d := hdisj k (by simp [keys])
    rw [hstep, dictSet_append_of_not_mem hk_not_d, ih ?_ hnd.2]
    · simp
    · intro x hx
      have hx' : x ∈ keys ((k, v) :: es) := by
        simp only [keys, List.map_cons, List.mem_cons]
        exact Or.inr hx
      have hxd : x ∉ keys d := hdisj x hx'
      have hxk : x ≠ k := by
        intro hh
        subst hh
        exact hnd.1 hx
      simp only [keys, List.map_append, List.mem_append, List.map_cons, List.map_nil,
        List.mem_cons, List.not_mem_nil, or_false]
      push_neg
      exact ⟨by simpa [keys] using hxd, hxk⟩

theorem dictUpdate_nil {g : Table} (h : (keys g).Nodup) : dictUpdate [] g = g := by
  simpa using dictUpdate_append_disjoint (d := []) (by simp [keys]) h

theorem dictGet_dictSet_self (d : Table) (k v : Str) : dictGet (dictSet d k v) k = some v := by
  induction d with
  | nil => simp [dictSet, dictGet]
  | cons kv d ih =>
    obtain ⟨k', v'⟩ := kv
    rw [dictSet]
    by_cases h : k' = k
    · rw [if_pos h]
      simp [dictGet]
    · rw [if_neg h]
      rw [dictGet, if_neg h]
      exact ih

theorem dictGet_dictSet_ne {k' k : Str} (d : Table) (v : Str) (h : k' ≠ k) :
    dictGet (dictSet d k' v) k = dictGet d k := by
  induction d with
  | nil => simp [dictSet, dictGet, h]
  | cons kv d ih =>
    obtain ⟨a, b⟩ := kv
    rw [dictSet]
    by_cases ha : a = k'
    · rw [if_pos ha]
      subst ha
      rw [dictGet, dictGet, if_neg h, if_neg h]
    · rw [if_neg ha]
      rw [dictGet, dictGet]
      by_cases hak : a = k
      · rw [if_pos hak, if_pos hak]
      · rw [if_neg hak, if_neg hak]
        exact ih

theorem dictGet_dictUpdate_not_mem : ∀ {es d : Table} {k : Str}, k ∉ keys es →
    dictGet (dictUpdate d es) k = dictGet d k := by
  intro es
  induction es with
  | nil => intro d k _; rfl
  | cons kv es ih =>
    intro d k h
    obtain ⟨k', v'⟩ := kv
    simp only [keys, List.map_cons, List.mem_cons] at h
    push_neg at h
    have hstep : dictUpdate d ((k', v') :: es) = dictUpdate (dictSet d k' v') es := rfl
    rw [hstep, ih (by simpa [keys] using h.2), dictGet_dictSet_ne _ _ (fun hk => h.1 hk.symm)]

theorem dictGet_dictUpdate_mem : ∀ {es d : Table} {k : Str},
    (keys es).Nodup → k ∈ keys es → dictGet (dictUpdate d es) k = dictGet es k := by
  intro es
  induction es with
  | nil => intro d k _ hk; simp [keys] at hk
  | cons kv es ih =>
    intro d k hnd hk
    obtain ⟨k', v'⟩ := kv
    have hstep : dictUpdate d ((k', v') :: es) = dictUpdate (dictSet d k' v') es := rfl
    simp only [keys, List.map_cons, List.nodup_cons] at hnd
    by_cases he : k = k'
    · subst he
      have hnotin : k ∉ keys es := by simpa [keys] using hnd.1
      rw [hstep, dictGet_dictUpdate_not_mem hnotin, dictGet_dictSet_self]
      rw [dictGet, if_pos rfl]
    · have hk' : k ∈ keys es := by
        simp only [keys, List.map_cons, List.mem_cons] at hk
        rcases hk with hk | hk
        · exact absurd hk.symm (fun hh => he hh.symm)
        · simpa [keys] using hk
      rw [hstep, ih hnd.2 hk', dictGet, if_neg (fun hh => he hh.symm)]

/-- Claim C5: `reset()` makes the active table contain exactly the
Glossary's entries — all of them and nothing else — so definitions
from a previous document do not leak past a `reset()`. -/
theorem C5_reset_restores_exactly_glossary (e : AbbrExtension)
    (h : (keys e.glossary).Nodup) : (reset e).abbrs = e.glossary := by
  rw [reset]
  by_cases hg : e.glossary = []
  · simp [hg]
  · simp only [hg, ne_eq, not_false_iff, if_true]
    exact dictUpdate_nil h

/-- Witness for C5 at a concrete state: a table with a leftover
definition and a glossary holding `HTML`. -/
theorem C5_witness :
    (keys ([("HTML".data, "HyperText Markup Language".data)] : Table)).Nodup ∧
    (reset ⟨[("B".data, "b".data)], [("HTML".data, "HyperText Markup Language".data)]⟩).abbrs =
      [("HTML".data, "HyperText Markup Language".data)] :=
  ⟨by decide,
   C5_reset_restores_exactly_glossary
     ⟨[("B".data, "b".data)], [("HTML".data, "HyperText Markup Language".data)]⟩ (by decide)⟩

/-- Claim C6: when `load_glossary` is given a mapping sharing a term
with an already-loaded Glossary entry, the existing entry's definition
is kept (first-loaded wins) and the new one is discarded; the active
table is untouched. -/
theorem C6_load_glossary_first_loaded_wins (e : AbbrExtension) (d : Table) (k : Str)
    (hnd : (keys e.glossary).Nodup) (hkg : k ∈ keys e.glossary) (hkd : k ∈ keys d) :
    dictGet (load_glossary e d).glossary k = dictGet e.glossary k ∧
    (load_glossary e d).abbrs = e.abbrs := by
  have hd : d ≠ [] := by
    intro hh
    subst hh
    simp [keys] at hkd
  rw [load_glossary, if_pos hd]
  exact ⟨dictGet_dictUpdate_mem hnd hkg, rfl⟩

/-- Witness for C6: the glossary already maps `HTML`; loading a new
definition for `HTML` keeps the old one and leaves the table alone. -/
theorem C6_witness :
    (keys ([("HTML".data, "old".data)] : Table)).Nodup ∧
    "HTML".data ∈ keys ([("HTML".data, "old".data)] : Table) ∧
    "HTML".data ∈ keys ([("HTML".data, "new".data)] : Table) ∧
    dictGet (load_glossary ⟨[], [("HTML".data, "old".data)]⟩ [("HTML".data, "new".data)]).glossary
        "HTML".data =
      dictGet ([("HTML".data, "old".data)] : Table) "HTML".data ∧
    (load_glossary ⟨[], [("HTML".data, "old".data)]⟩ [("HTML".data, "new".data)]).abbrs = [] := by
  refine ⟨by decide, by decide, by decide, ?_⟩
  exact C6_load_glossary_first_loaded_wins ⟨[], [("HTML".data, "old".data)]⟩
    [("HTML".data, "new".data)] "HTML".data (by decide) (by decide) (by decide)

/-- Claim C2 (refuted — the code raises): evaluating
`AbbrBlockprocessor.run` on a deletion declaration for a term that is
not in the table hits `self.abbrs.pop(abbr)` with no default, which
raises `KeyError`; the run does not complete. -/
theorem C2_deletion_of_undefined_term_raises :
    abbrBlock_run [] ["*[XYZ]: ''".data] = none := by decide

/-- Claim C3: with `HTML` and `HTML5` both in the table and the text
`I love HTML5 pages`, the rewriter produces exactly one `abbr` node
spanning `HTML5` with title `HTML version 5` and nothing wrapping
`HTML` alone — because the keys are sorted by length descending before
being joined into the alternation. -/
theorem C3_longest_match_precedence :
    abbrTree_run
        [("HTML".data, "HyperText Markup Language".data), ("HTML5".data, "HTML version 5".data)]
        (Elem.mk "p".data [] (some "I love HTML5 pages".data) .nil none) =
      Elem.mk "p".data [] (some "I love ".data)
        (.cons (Elem.mk "abbr".data [("title".data, "HTML version 5".data)]
          (some "HTML5".data) .nil (some " pages".data)) .nil) none ∧
    sortKeysDesc
        [("HTML".data, "HyperText Markup Language".data), ("HTML5".data, "HTML version 5".data)] =
      ["HTML5".data, "HTML".data] :=
  ⟨by decide, by decide⟩

/-- Counterexample to claim C4: build the pattern with the table
`{A: x}`, then add `B` to the table; the pattern the rewriter would
scan with is still the cached one and differs from the pattern
computed fresh from the current table's keys — the cache is not
invalidated. -/
theorem C4_counterexample :
    (patternGet { (patternGet ⟨[("A".data, "x".data)], none⟩).2 with
        abbrs := dictSet (patternGet ⟨[("A".data, "x".data)], none⟩).2.abbrs "B".data "y".data }).1 ≠
      sortKeysDesc
        (dictSet (patternGet ⟨[("A".data, "x".data)], none⟩).2.abbrs "B".data "y".data) := by
  decide

/-- Claim C4 as amended: once a pattern has been built and cached it
is never invalidated — after any change of the table the next pattern
access still returns the cached pattern unchanged. -/
theorem C4_amended_cache_never_invalidated (tp : AbbrTreeprocessorState) (p : List Str)
    (h : tp.patternCache = some p) (a : Table) :
    (patternGet { tp with abbrs := a }).1 = p := by
  rw [patternGet, if_neg]
  · simp [h]
  · simp [h]

/-- Witness for the amended C4 at a concrete cached state. -/
theorem C4_amended_witness :
    (AbbrTreeprocessorState.mk [("A".data, "x".data)] (some ["A".data])).patternCache =
      some ["A".data] ∧
    (patternGet { AbbrTreeprocessorState.mk [("A".data, "x".data)] (some ["A".data]) with
        abbrs := [("A".data, "x".data), ("B".data, "y".data)] }).1 = ["A".data] :=
  ⟨rfl,
   C4_amended_cache_never_invalidated
     (AbbrTreeprocessorState.mk [("A".data, "x".data)] (some ["A".data]))
     ["A".data] rfl [("A".data, "x".data), ("B".data, "y".data)]⟩

/-- Claim C7: when the declaration regex matches but the term or the
definition strips to empty, `AbbrBlockprocessor.run` signals not
handled, leaves the table unchanged, and restores the original block
at the head of the block list. -/
theorem C7_empty_term_or_title_not_handled (abbrs : Table) (block : Str) (rest : List Str)
    (s e : Nat) (rawAbbr rawTitle : Str)
    (hm : reSearch block = some (s, e, rawAbbr, rawTitle))
    (hempty : pyStrip rawAbbr = [] ∨ pyStrip rawTitle = []) :
    abbrBlock_run abbrs (block :: rest) = some (abbrs, block :: rest, false) := by
  rw [abbrBlock_run, hm]
  rcases hempty with h | h <;> simp [h]

/-- Witness for C7: the block `*[A]:` matches the regex with an empty
title and is passed through unhandled. -/
theorem C7_witness :
    reSearch "*[A]:".data = some (0, 5, "A".data, []) ∧
    pyStrip ([] : Str) = [] ∧
    abbrBlock_run [] ["*[A]:".data] = some ([], ["*[A]:".data], false) :=
  ⟨by decide, by decide,
   C7_empty_term_or_title_not_handled [] "*[A]:".data [] 0 5 "A".data [] (by decide)
     (Or.inr (by decide))⟩

/-- Claim C8: a declaration interleaved with content adds the entry,
signals handled, and re-queues the preceding and following content (in
original order) with the adjacent newlines stripped. -/
theorem C8_interleaved_declaration :
    abbrBlock_run [] ["Intro text.\n*[ABC]: Some Name\nMore text.".data] =
      some ([("ABC".data, "Some Name".data)],
        ["Intro text.".data, "More text.".data], true) := by decide

/-- Claim C9: with table `{I: first person}` the text `This is mine`
is left untouched — the word-boundary assertions around the
alternation prevent any match inside a larger word. -/
theorem C9_word_boundary_enforcement :
    abbrTree_run [("I".data, "first person".data)]
        (Elem.mk "p".data [] (some "This is mine".data) .nil none) =
      Elem.mk "p".data [] (some "This is mine".data) .nil none := by decide

theorem tryMatch_mem {t : Str} {i : Nat} {w : Str} :
    ∀ {alts : List Str}, tryMatch t i alts = some w → w ∈ alts := by
  intro alts
  induction alts with
  | nil => intro h; simp [tryMatch] at h
  | cons a as ih =>
    intro h
    rw [tryMatch] at h
    split at h
    · cases h
      exact List.mem_cons_self _ _
    · exact List.mem_cons_of_mem a (ih h)

theorem scanMatches_mem {alts : List Str} {t : Str} :
    ∀ {fuel i : Nat} {m : Nat × Nat × Str}, m ∈ scanMatches alts t fuel i → m.2.2 ∈ alts := by
  intro fuel
  induction fuel with
  | zero => intro i m h; simp [scanMatches] at h
  | succ f ih =>
    intro i m h
    rw [scanMatches] at h
    split at h
    · cases htm : tryMatch t i alts with
      | some w =>
        simp only [htm, List.mem_cons] at h
        rcases h with h | h
        · subst h
          exact tryMatch_mem htm
        · exact ih h
      | none =>
        simp only [htm] at h
        exact ih h
    · simp at h

theorem foldlM_loopStep (abbrs : Table) :
    ∀ (l : List (Nat × Nat × Str)) (acc : List AMatch),
      (∀ m ∈ l, dictGet abbrs m.2.2 ≠ none) →
      ∃ extra, l.foldlM (loopStep abbrs) acc = some (acc ++ extra) ∧
        ∀ x ∈ extra, dictGet abbrs x.2.2.1 = some x.2.2.2 ∧ x.2.2.2 ≠ [] := by
  intro l
  induction l with
  | nil =>
    intro acc _
    exact ⟨[], by simp [List.foldlM], by simp⟩
  | cons m l ih =>
    intro acc hl
    cases hg : dictGet abbrs m.2.2 with
    | none => exact absurd hg (hl m (List.mem_cons_self m l))
    | some d =>
      have hstep : loopStep abbrs acc m =
          some (if d ≠ [] then acc ++ [(m.1, m.2.1, m.2.2, d)] else acc) := by
        simp only [loopStep, hg]
      by_cases hd : d ≠ []
      · rw [if_pos hd] at hstep
        obtain ⟨extra, heq, htr⟩ := ih (acc ++ [(m.1, m.2.1, m.2.2, d)])
          (fun x hx => hl x (List.mem_cons_of_mem m hx))
        refine ⟨(m.1, m.2.1, m.2.2, d) :: extra, ?_, ?_⟩
        · rw [List.foldlM_cons, hstep]
          show List.foldlM (loopStep abbrs) (acc ++ [(m.1, m.2.1, m.2.2, d)]) l =
            some (acc ++ (m.1, m.2.1, m.2.2, d) :: extra)
          rw [heq, List.append_assoc, List.singleton_append]
        · intro x hx
          rcases List.mem_cons.mp hx with hx | hx
          · subst hx
            exact ⟨hg, hd⟩
          · exact htr x hx
      · rw [if_neg hd] at hstep
        obtain ⟨extra, heq, htr⟩ := ih acc (fun x hx => hl x (List.mem_cons_of_mem m hx))
        refine ⟨extra, ?_, htr⟩
        rw [List.foldlM_cons, hstep]
        show List.foldlM (loopStep abbrs) acc l = some (acc ++ extra)
        exact heq

/-- Counterexample to claim C10: in a stale-pattern configuration —
the pattern was built from a table holding `A`, the table then lost
that entry — scanning `A` hits the no-default lookup
`self.abbrs[m.group(0)]` with a missing key, so `process_text` raises
`KeyError` (modelled as `none`) instead of returning its input. -/
theorem C10_counterexample :
    process_textE [] (patternGet ⟨[("A".data, "x".data)], none⟩).1 "A".data [] = none := by
  rfl

/-- Claim C10 as amended: whenever every alternative of the scanned
pattern is a key of the table — which holds in particular for the
pattern the processor builds from its own table's keys —
`process_text` completes without raising, returns its input string
unchanged, and its only other effect is appending match tuples whose
definition in the table is truthy. -/
theorem C10_amended_pure_when_alts_are_keys (abbrs : Table) (alts : List Str) (t : Str)
    (ms : List AMatch) (halts : ∀ a ∈ alts, dictGet abbrs a ≠ none) :
    ∃ extra, process_textE abbrs alts t ms = some (t, ms ++ extra) ∧
      ∀ x ∈ extra, dictGet abbrs x.2.2.1 = some x.2.2.2 ∧ x.2.2.2 ≠ [] := by
  rw [process_textE]
  split
  · exact ⟨[], by simp, by simp⟩
  · obtain ⟨extra, heq, htr⟩ := foldlM_loopStep abbrs (finditer alts t) ms
      (fun m hm => halts m.2.2 (scanMatches_mem hm))
    refine ⟨extra, ?_, htr⟩
    rw [heq]
    rfl

/-- Witness for the amended C10: the pattern built from a one-entry
table scans `I love HTML5 pages` and appends exactly the truthy
`HTML5` match. -/
theorem C10_amended_witness :
    (∀ a ∈ (["HTML5".data] : List Str),
        dictGet [("HTML5".data, "HTML version 5".data)] a ≠ none) ∧
    ∃ extra,
      process_textE [("HTML5".data, "HTML version 5".data)] ["HTML5".data]
          "I love HTML5 pages".data [] =
        some ("I love HTML5 pages".data, [] ++ extra) ∧
      ∀ x ∈ extra,
        dictGet [("HTML5".data, "HTML version 5".data)] x.2.2.1 = some x.2.2.2 ∧
        x.2.2.2 ≠ [] :=
  ⟨by decide,
   C10_amended_pure_when_alts_are_keys [("HTML5".data, "HTML version 5".data)]
     ["HTML5".data] "I love HTML5 pages".data [] (by decide)⟩

end Abbr
